import Mathlib

/-!
Verification of the liionpack pack-solver orchestration (`liionpack/solvers.py`).

The development shallowly embeds the step-loop of `generic_manager.solve`,
the event detector `generic_actor.check_events`, and the partitioning
performed by `ray_manager.split_models` / `dask_manager.split_models`
(`np.array_split(np.arange(Nspm), nproc)`).

Floating-point values are modelled as rationals; numpy arrays as lists;
the external collaborators (circuit solver `lp.solve_circuit_vectorized`
and the electrochemical stepper behind `generic_actor.step`) as opaque
functions supplied in the inputs, with the worker state threaded through
explicitly.
-/

namespace Liionpack

/-- One row of the netlist dataframe: columns `desc`, `node1`, `node2`, `value`. -/
structure Row where
  desc : String
  node1 : Nat
  node2 : Nat
  value : ℚ
deriving DecidableEq

/-- Does `sub` occur as a prefix of `l`? (helper for the substring test). -/
def startsWithChars : List Char → List Char → Bool
  | [], _ => true
  | _ :: _, [] => false
  | a :: as, b :: bs => a == b && startsWithChars as bs

/-- Does `sub` occur somewhere inside `l`? -/
def hasSubChars : List Char → List Char → Bool
  | sub, [] => startsWithChars sub []
  | sub, c :: cs => startsWithChars sub (c :: cs) || hasSubChars sub cs

/-- Models pandas `series.str.find(sub) > -1`: `sub` occurs in `s`. -/
def strFind (sub s : String) : Bool := hasSubChars sub.toList s.toList

/-- The per-cell internal-resistance derivation of `generic_manager.solve`
(lines 189-192): `temp_Ri = (temp_ocv - temp_v) / i_app`, overwritten with
`1e-12` wherever `|i_app| < 1e-6`. -/
def computeRi (ocv v i : ℚ) : ℚ :=
  if |i| < 1 / 1000000 then 1 / 1000000000000 else (ocv - v) / i

/-- Models `np.sign` on rationals. -/
def qsign (x : ℚ) : Int := if 0 < x then 1 else if x < 0 then -1 else 0

/-- Models `generic_actor.check_events` (lines 76-86).  The stored
`last_events` is `none` before the first call.  Returns the reported
event flag (`np.any(self.event_change)` or `False` on the first call)
together with the updated stored `last_events`. -/
def check_events (last : Option (List (List ℚ))) (cur : List (List ℚ)) :
    Bool × Option (List (List ℚ)) :=
  match last with
  | some prev =>
      let change := List.zipWith (List.zipWith fun o n => decide (qsign o * qsign n < 0)) prev cur
      (change.any fun row => row.any id, some cur)
  | none => (false, some cur)

/-- Entry `[e, c]` of an event-indicator matrix (0 outside the matrix). -/
def entry (m : List (List ℚ)) (e c : ℕ) : ℚ := (m.getD e []).getD c 0

/-- The group sizes produced by `np.array_split` of an `N`-element array
into `W` sections: the first `N % W` groups have `N / W + 1` elements,
the rest have `N / W`. -/
def splitSizes (N W : ℕ) : List ℕ :=
  (List.range W).map fun i => if i < N % W then N / W + 1 else N / W

/-- Cut a list into consecutive chunks of the given sizes. -/
def takeParts : List ℕ → List ℕ → List (List ℕ)
  | [], _ => []
  | n :: ns, xs => xs.take n :: takeParts ns (xs.drop n)

/-- Models `np.array_split(np.arange(N), W)`, as used by
`ray_manager.split_models` and `dask_manager.split_models` to build
`self.split_index`. -/
def arraySplit (N W : ℕ) : List (List ℕ) := takeParts (splitSizes N W) (List.range N)

/-- Result of one worker step: the advanced opaque worker state, the
output-variable matrix (shape `[n_variables, n_cells]`), and the
reported event flag. -/
structure StepResult (σ : Type) where
  newState : σ
  outputs : List (List ℚ)
  event : Bool

/-- The inputs of `generic_manager.solve`, with the external
collaborators (circuit solver, worker stepper) as opaque functions. -/
structure Inputs (σ : Type) where
  netlist : List Row
  protocol : List ℚ
  dt : ℚ
  vCutLower : ℚ
  vCutHigher : ℚ
  output_variables : Option (List String)
  circuitSolve : List Row → List ℚ × List ℚ
  stepper : σ → List ℚ → StepResult σ
  s0 : σ

variable {σ : Type}

/-- Models `V_map = netlist["desc"].str.find("V") > -1` (precomputed once). -/
def vMask (I : Inputs σ) : List Bool := I.netlist.map fun r => strFind "V" r.desc

/-- Models `Ri_map = netlist["desc"].str.find("Ri") > -1`. -/
def riMask (I : Inputs σ) : List Bool := I.netlist.map fun r => strFind "Ri" r.desc

/-- Models `I_map = netlist["desc"].str.find("I") > -1`. -/
def iMask (I : Inputs σ) : List Bool := I.netlist.map fun r => strFind "I" r.desc

/-- Models `Terminal_Node = np.array(netlist[I_map].node1)`; the loop reads
`V_node[Terminal_Node][0]`, i.e. the node1 of the first current source. -/
def terminalNode (I : Inputs σ) : ℕ :=
  ((I.netlist.filter fun r => strFind "I" r.desc).map Row.node1).getD 0 0

/-- Models `Nspm = np.sum(V_map)`. -/
def nspm (I : Inputs σ) : ℕ := (vMask I).count true

/-- Models `Nsteps = len(protocol)`. -/
def nsteps (I : Inputs σ) : ℕ := I.protocol.length

/-- Models `self.variable_names` (lines 144-152): the two mandatory variables,
then each requested output variable that is not already present. -/
def variableNames (ov : Option (List String)) : List String :=
  let base := ["Terminal voltage [V]", "Measured battery open circuit voltage [V]"]
  match ov with
  | none => base
  | some ovs => ovs.foldl (fun acc out => if out ∈ acc then acc else acc ++ [out]) base

/-- Models `Nvar = len(self.variable_names)`. -/
def nvar (I : Inputs σ) : ℕ := (variableNames I.output_variables).length

/-- Models `end_time = self.dt * Nsteps`. -/
def endTime (I : Inputs σ) : ℚ := I.dt * (nsteps I : ℚ)

/-- Models `netlist.loc[mask, ("value")] = vals` for a boolean mask and an
array of values: the rows where the mask is `true` receive, in order,
the corresponding entry of `vals`; all other columns are untouched. -/
def setMasked : List Row → List Bool → List ℚ → List Row
  | [], _, _ => []
  | rs, [], _ => rs
  | r :: rs, b :: bs, vals =>
    if b then
      match vals with
      | [] => r :: setMasked rs bs []
      | v :: vs => { r with value := v } :: setMasked rs bs vs
    else r :: setMasked rs bs vals

/-- Models `netlist.loc[mask, ("value")] = v` for a scalar `v` (broadcast). -/
def setMaskedScalar : List Row → List Bool → ℚ → List Row
  | [], _, _ => []
  | rs, [], _ => rs
  | r :: rs, b :: bs, v =>
    (if b then { r with value := v } else r) :: setMaskedScalar rs bs v

/-- The mutable state of the step loop of `generic_manager.solve`. -/
structure LoopState (σ : Type) where
  netlist : List Row
  shm_i_app : List (List ℚ)
  output : List (List (List ℚ))
  recordTimes : List ℚ
  vTerminal : List ℚ
  time : ℚ
  workerState : σ

/-- The state right before the loop (lines 139-173): zero-filled
buffers, row 0 of `shm_i_app` initialised to `I_batt * -1` from the
initial circuit solve. -/
def initState (I : Inputs σ) : LoopState σ :=
  let ibatt0 := (I.circuitSolve I.netlist).2
  { netlist := I.netlist
    shm_i_app := (List.replicate (nsteps I) (List.replicate (nspm I) (0 : ℚ))).set 0
      (ibatt0.map Neg.neg)
    output := List.replicate (nvar I)
      (List.replicate (nsteps I) (List.replicate (nspm I) (0 : ℚ)))
    recordTimes := []
    vTerminal := []
    time := 0
    workerState := I.s0 }

/-- Models `self.output[:, step, :] = out` — write one timestep column of the
`[variable, step, cell]` output buffer. -/
def writeStep (output : List (List (List ℚ))) (step : ℕ) (outs : List (List ℚ)) :
    List (List (List ℚ)) :=
  List.zipWith (fun m v => m.set step v) output outs

/-- What one loop iteration produces: the new loop state, the terminal
voltages `temp_v` read back at this step (used by the cutoff check), and
the branch currents `I_batt` of this step's circuit re-solve. -/
structure StepOut (σ : Type) where
  state : LoopState σ
  temp_v : List ℚ
  ibatt : List ℚ

/-- One iteration of the stepping loop (lines 177-213), minus the final
voltage-cutoff `break` check, which `runFrom` performs on `temp_v`.
`step` is the loop variable (equal to `self.timestep` while stepping).
The second `if time < end_time` of the source sits inside the first
branch here, which is equivalent because `time < end_time` implies
`time <= end_time`. -/
def stepBody (I : Inputs σ) (step : ℕ) (st : LoopState σ) : StepOut σ :=
  let iRow := st.shm_i_app.getD step []
  let r := I.stepper st.workerState iRow
  let outWritten := writeStep st.output step r.outputs
  let time2 := st.time + I.dt
  let temp_v := (outWritten.getD 0 []).getD step []
  let temp_ocv := (outWritten.getD 1 []).getD step []
  let temp_Ri := List.zipWith3 computeRi temp_ocv temp_v iRow
  let nl := setMaskedScalar
    (setMasked (setMasked st.netlist (vMask I) temp_ocv) (riMask I) temp_Ri)
    (iMask I) (I.protocol.getD step 0)
  if time2 ≤ endTime I then
    let p := I.circuitSolve nl
    { state :=
        { netlist := nl
          shm_i_app :=
            if time2 < endTime I then st.shm_i_app.set (step + 1) (p.2.map Neg.neg)
            else st.shm_i_app
          output := outWritten
          recordTimes := st.recordTimes ++ [time2]
          vTerminal := st.vTerminal ++ [p.1.getD (terminalNode I) 0]
          time := time2
          workerState := r.newState }
      temp_v := temp_v
      ibatt := p.2 }
  else
    { state :=
        { netlist := nl
          shm_i_app := st.shm_i_app
          output := outWritten
          recordTimes := st.recordTimes
          vTerminal := st.vTerminal
          time := time2
          workerState := r.newState }
      temp_v := temp_v
      ibatt := [] }

/-- The voltage-cutoff break condition (lines 206-211):
`np.any(temp_v < v_cut_lower)` or `np.any(temp_v > v_cut_higher)`. -/
def outOfCut (lo hi : ℚ) (v : List ℚ) : Bool :=
  (v.any fun x => decide (x < lo)) || (v.any fun x => decide (hi < x))

/-- The stepping loop `for step in tqdm(range(Nsteps))`, recursing on
the number of remaining iterations.  Returns the final loop state and
the value of the loop variable `step` after the loop (the index of the
last executed step). -/
def runFrom (I : Inputs σ) : ℕ → ℕ → LoopState σ → LoopState σ × ℕ
  | 0, step, st => (st, step - 1)
  | rem + 1, step, st =>
    let r := stepBody I step st
    if outOfCut I.vCutLower I.vCutHigher r.temp_v then (r.state, step)
    else runFrom I rem (step + 1) r.state

/-- The whole loop of `solve`, from step 0 on the initial state. -/
def finalRun (I : Inputs σ) : LoopState σ × ℕ := runFrom I (nsteps I) 0 (initState I)

/-- The loop state after `n` iterations when no break fires up to `n`
(the break-free trajectory; the real run coincides with it up to and
including the breaking step). -/
def iter (I : Inputs σ) : ℕ → LoopState σ
  | 0 => initState I
  | n + 1 => (stepBody I n (iter I n)).state

/-- The per-cell terminal voltages read back at step `j` of the
trajectory. -/
def tempV (I : Inputs σ) (j : ℕ) : List ℚ := (stepBody I j (iter I j)).temp_v

/-- A value of the returned result mapping: a 1D time series or a 2D
step-by-cell series. -/
inductive SeriesVal where
  | one : List ℚ → SeriesVal
  | two : List (List ℚ) → SeriesVal
deriving DecidableEq

/-- Number of recorded steps of a series. -/
def seriesLen : SeriesVal → ℕ
  | .one l => l.length
  | .two m => m.length

/-- Models `generic_manager.solve`: run the loop, then assemble
`self.all_output` (lines 216-233) with the buffers sliced to
`step + 1` recorded steps. -/
def solve (I : Inputs σ) : List (String × SeriesVal) :=
  let r := finalRun I
  let stF := r.1
  let k1 := r.2 + 1
  [("Time [s]", SeriesVal.one stF.recordTimes),
   ("Pack current [A]", SeriesVal.one (I.protocol.take k1)),
   ("Pack terminal voltage [V]", SeriesVal.one stF.vTerminal),
   ("Cell current [A]", SeriesVal.two (stF.shm_i_app.take k1))]
  ++ (List.range (nvar I)).map
      (fun j => ((variableNames I.output_variables).getD j "",
                 SeriesVal.two ((stF.output.getD j []).take k1)))

/-- C1: the per-cell internal resistance written into the netlist at
every step is the pure function `computeRi` of that step's OCV, terminal
voltage and applied current: `R = (OCV - V) / I` whenever
`|I| >= 1e-6`, and `R = 1e-12` whenever `|I| < 1e-6`. -/
theorem computeRi_spec (ocv v i : ℚ) :
    (1 / 1000000 ≤ |i| → computeRi ocv v i = (ocv - v) / i) ∧
    (|i| < 1 / 1000000 → computeRi ocv v i = 1 / 1000000000000) := by
  refine ⟨fun h => ?_, fun h => ?_⟩ <;> unfold computeRi
  · rw [if_neg (not_lt.mpr h)]
  · rw [if_pos h]

/-- Witness for `computeRi_spec` at `(OCV, V, I) = (4, 3, 2)` and
`(4, 3, 0)`. -/
theorem computeRi_spec_witness :
    ((1 : ℚ) / 1000000 ≤ |(2 : ℚ)| ∧ computeRi 4 3 2 = (4 - 3) / 2) ∧
    (|(0 : ℚ)| < 1 / 1000000 ∧ computeRi 4 3 0 = 1 / 1000000000000) :=
  ⟨⟨by norm_num, (computeRi_spec 4 3 2).1 (by norm_num)⟩,
   ⟨by norm_num, (computeRi_spec 4 3 0).2 (by norm_num)⟩⟩

/-- C2: the first `check_events` call stores the indicator matrix and
reports no event; a subsequent call reports an event iff
`sign(previous) * sign(current) < 0` at some `[event, cell]` entry; and
after every call the stored previous matrix is the current one. -/
theorem check_events_spec (prev cur : List (List ℚ))
    (hr : prev.length = cur.length)
    (hc : ∀ e, (prev.getD e []).length = (cur.getD e []).length) :
    ((check_events none cur).1 = false ∧ (check_events none cur).2 = some cur) ∧
    (check_events (some prev) cur).2 = some cur ∧
    ((check_events (some prev) cur).1 = true ↔
      ∃ e c, e < prev.length ∧ c < (prev.getD e []).length ∧
        qsign (entry prev e c) * qsign (entry cur e c) < 0) := by
  refine ⟨⟨rfl, rfl⟩, rfl, ?_⟩
  show (List.zipWith (List.zipWith fun o n => decide (qsign o * qsign n < 0)) prev cur).any
      (fun row => row.any id) = true ↔ _
  constructor
  · intro h
    rw [List.any_eq_true] at h
    obtain ⟨row, hrow, hany⟩ := h
    rw [List.any_eq_true] at hany
    obtain ⟨b, hb, hbtrue⟩ := hany
    rw [List.mem_iff_getElem] at hrow
    obtain ⟨e, he, hrowe⟩ := hrow
    have hep : e < prev.length := List.lt_length_left_of_zipWith he
    have hec : e < cur.length := List.lt_length_right_of_zipWith he
    rw [List.getElem_zipWith] at hrowe
    subst hrowe
    rw [List.mem_iff_getElem] at hb
    obtain ⟨c, hcb, hbc⟩ := hb
    have hcp : c < prev[e].length := List.lt_length_left_of_zipWith hcb
    have hcc : c < cur[e].length := List.lt_length_right_of_zipWith hcb
    rw [List.getElem_zipWith] at hbc
    subst hbc
    simp only [id] at hbtrue
    have hsign := of_decide_eq_true hbtrue
    refine ⟨e, c, hep, ?_, ?_⟩
    · rwa [List.getD_eq_getElem _ _ hep]
    · unfold entry
      rw [List.getD_eq_getElem _ _ hep, List.getD_eq_getElem _ _ hec,
        List.getD_eq_getElem _ _ hcp, List.getD_eq_getElem _ _ hcc]
      exact hsign
  · rintro ⟨e, c, hep, hcd, hsign⟩
    have hec : e < cur.length := hr ▸ hep
    have hcp : c < prev[e].length := by
      rwa [List.getD_eq_getElem _ _ hep] at hcd
    have hcc : c < cur[e].length := by
      have := hc e
      rw [List.getD_eq_getElem _ _ hep, List.getD_eq_getElem _ _ hec] at this
      omega
    rw [List.any_eq_true]
    have hez : e < (List.zipWith
        (List.zipWith fun o n => decide (qsign o * qsign n < 0)) prev cur).length := by
      rw [List.length_zipWith]; omega
    refine ⟨_, List.getElem_mem hez, ?_⟩
    rw [List.getElem_zipWith, List.any_eq_true]
    have hcz : c < (List.zipWith (fun o n => decide (qsign o * qsign n < 0))
        prev[e] cur[e]).length := by
      rw [List.length_zipWith]; omega
    refine ⟨_, List.getElem_mem hcz, ?_⟩
    rw [List.getElem_zipWith]
    simp only [id, decide_eq_true_eq]
    unfold entry at hsign
    rwa [List.getD_eq_getElem _ _ hep, List.getD_eq_getElem _ _ hec,
      List.getD_eq_getElem _ _ hcp, List.getD_eq_getElem _ _ hcc] at hsign

/-- Witness for `check_events_spec`: one event index, two cells, the
second cell's indicator flips sign. -/
theorem check_events_spec_witness :
    ([[(1 : ℚ), -1]].length = [[(1 : ℚ), 1]].length) ∧
    ((check_events none [[(1 : ℚ), 1]]).1 = false ∧
      (check_events none [[(1 : ℚ), 1]]).2 = some [[(1 : ℚ), 1]]) ∧
    (check_events (some [[(1 : ℚ), -1]]) [[(1 : ℚ), 1]]).2 = some [[(1 : ℚ), 1]] ∧
    ((check_events (some [[(1 : ℚ), -1]]) [[(1 : ℚ), 1]]).1 = true ↔
      ∃ e c, e < [[(1 : ℚ), -1]].length ∧ c < ([[(1 : ℚ), -1]].getD e []).length ∧
        qsign (entry [[(1 : ℚ), -1]] e c) * qsign (entry [[(1 : ℚ), 1]] e c) < 0) :=
  ⟨rfl, check_events_spec [[(1 : ℚ), -1]] [[(1 : ℚ), 1]] rfl (fun e => by cases e <;> rfl)⟩

lemma splitSizes_sum_aux (l r W : ℕ) :
    ((List.range W).map fun i => if i < r then l + 1 else l).sum = W * l + min r W := by
  induction W with
  | zero => simp
  | succ W ih =>
    rw [List.range_succ, List.map_append, List.sum_append, ih]
    simp only [List.map_cons, List.map_nil, List.sum_cons, List.sum_nil]
    by_cases h : W < r
    · rw [if_pos h, min_eq_right (Nat.le_of_lt h), min_eq_right h,
        Nat.succ_eq_add_one]
      ring
    · rw [if_neg h, min_eq_left (Nat.not_lt.mp h), min_eq_left (by omega)]
      ring

lemma splitSizes_sum (N W : ℕ) (hW : 0 < W) : (splitSizes N W).sum = N := by
  unfold splitSizes
  rw [splitSizes_sum_aux, min_eq_left (Nat.le_of_lt (Nat.mod_lt _ hW))]
  exact Nat.div_add_mod N W

lemma takeParts_flatten : ∀ (sizes xs : List ℕ),
    (takeParts sizes xs).flatten = xs.take sizes.sum := by
  intro sizes
  induction sizes with
  | nil => intro xs; simp [takeParts]
  | cons n ns ih =>
    intro xs
    simp only [takeParts, List.flatten_cons, ih, List.sum_cons, List.take_add]

lemma takeParts_length : ∀ (sizes xs : List ℕ), (takeParts sizes xs).length = sizes.length := by
  intro sizes
  induction sizes with
  | nil => intro xs; rfl
  | cons n ns ih => intro xs; simp [takeParts, ih]

lemma range'_take : ∀ (m n s : ℕ), (List.range' s m).take n = List.range' s (min n m) := by
  intro m
  induction m with
  | zero => intro n s; simp
  | succ m ih =>
    intro n s
    cases n with
    | zero => simp
    | succ n =>
      show (s :: List.range' (s + 1) m).take (n + 1) = List.range' s (min (n + 1) (m + 1))
      rw [List.take_succ_cons, ih, Nat.succ_min_succ]
      rfl

lemma range'_drop : ∀ (m n s : ℕ), (List.range' s m).drop n = List.range' (s + n) (m - n) := by
  intro m
  induction m with
  | zero => intro n s; simp
  | succ m ih =>
    intro n s
    cases n with
    | zero => simp
    | succ n =>
      show (s :: List.range' (s + 1) m).drop (n + 1) = List.range' (s + (n + 1)) (m + 1 - (n + 1))
      rw [List.drop_succ_cons, ih, Nat.succ_sub_succ]
      congr 1
      omega

lemma takeParts_range' : ∀ (sizes : List ℕ) (s m : ℕ) (g : List ℕ),
    g ∈ takeParts sizes (List.range' s m) → ∃ a, g = List.range' a g.length := by
  intro sizes
  induction sizes with
  | nil => intro s m g hg; simp [takeParts] at hg
  | cons n ns ih =>
    intro s m g hg
    simp only [takeParts, List.mem_cons] at hg
    rcases hg with h | h
    · subst h
      rw [range'_take]
      refine ⟨s, ?_⟩
      rw [List.length_range']
    · rw [range'_drop] at h
      exact ih (s + n) (m - n) g h

/-- C4: for `1 ≤ W ≤ N`, `np.array_split(np.arange(N), W)` (the worker
partition built by `split_models`) yields exactly `W` groups that are
contiguous index ranges, pairwise disjoint, whose concatenation in
order is exactly `0..N-1`, and whose sizes sum to `N`. -/
theorem arraySplit_partition (N W : ℕ) (hW : 0 < W) (hWN : W ≤ N) :
    (arraySplit N W).length = W ∧
    (arraySplit N W).flatten = List.range N ∧
    ((arraySplit N W).map List.length).sum = N ∧
    (∀ g ∈ arraySplit N W, ∃ a, g = List.range' a g.length) ∧
    List.Pairwise List.Disjoint (arraySplit N W) := by
  have hsum : (splitSizes N W).sum = N := splitSizes_sum N W hW
  have hflat : (arraySplit N W).flatten = List.range N := by
    unfold arraySplit
    rw [takeParts_flatten, hsum, List.take_of_length_le (by rw [List.length_range])]
  refine ⟨?_, hflat, ?_, ?_, ?_⟩
  · unfold arraySplit splitSizes
    rw [takeParts_length, List.length_map, List.length_range]
  · rw [← List.length_flatten, hflat, List.length_range]
  · intro g hg
    unfold arraySplit at hg
    rw [List.range_eq_range'] at hg
    exact takeParts_range' (splitSizes N W) 0 N g hg
  · have hnd : (arraySplit N W).flatten.Nodup := by
      rw [hflat]; exact List.nodup_range N
    exact (List.nodup_flatten.mp hnd).2

/-- Witness for `arraySplit_partition` at `N = 5`, `W = 2`. -/
theorem arraySplit_partition_witness :
    (arraySplit 5 2).length = 2 ∧
    (arraySplit 5 2).flatten = List.range 5 ∧
    ((arraySplit 5 2).map List.length).sum = 5 ∧
    (∀ g ∈ arraySplit 5 2, ∃ a, g = List.range' a g.length) ∧
    List.Pairwise List.Disjoint (arraySplit 5 2) :=
  arraySplit_partition 5 2 (by decide) (by decide)

/-- The structural part of a netlist: row count, element kind markers
(`desc`) and node topology — everything except the `value` column. -/
def shape (nl : List Row) : List (String × ℕ × ℕ) := nl.map fun r => (r.desc, r.node1, r.node2)

lemma setMasked_shape : ∀ (nl : List Row) (mask : List Bool) (vals : List ℚ),
    shape (setMasked nl mask vals) = shape nl := by
  intro nl
  induction nl with
  | nil => intro mask vals; cases mask <;> rfl
  | cons r rs ih =>
    intro mask vals
    cases mask with
    | nil => rfl
    | cons b bs =>
      cases b with
      | false =>
        show shape (r :: setMasked rs bs vals) = shape (r :: rs)
        simp only [shape, List.map_cons]
        exact congrArg _ (ih bs vals)
      | true =>
        cases vals with
        | nil =>
          show shape (r :: setMasked rs bs []) = shape (r :: rs)
          simp only [shape, List.map_cons]
          exact congrArg _ (ih bs [])
        | cons v vs =>
          show shape ({ r with value := v } :: setMasked rs bs vs) = shape (r :: rs)
          simp only [shape, List.map_cons]
          exact congrArg _ (ih bs vs)

lemma setMaskedScalar_shape : ∀ (nl : List Row) (mask : List Bool) (v : ℚ),
    shape (setMaskedScalar nl mask v) = shape nl := by
  intro nl
  induction nl with
  | nil => intro mask v; cases mask <;> rfl
  | cons r rs ih =>
    intro mask v
    cases mask with
    | nil => rfl
    | cons b bs =>
      cases b with
      | false =>
        show shape (r :: setMaskedScalar rs bs v) = shape (r :: rs)
        simp only [shape, List.map_cons]
        exact congrArg _ (ih bs v)
      | true =>
        show shape ({ r with value := v } :: setMaskedScalar rs bs v) = shape (r :: rs)
        simp only [shape, List.map_cons]
        exact congrArg _ (ih bs v)

lemma stepBody_netlist_shape (I : Inputs σ) (step : ℕ) (st : LoopState σ) :
    shape (stepBody I step st).state.netlist = shape st.netlist := by
  unfold stepBody
  dsimp only
  split <;> rw [setMaskedScalar_shape, setMasked_shape, setMasked_shape]

lemma iter_netlist_shape (I : Inputs σ) : ∀ n, shape ((iter I n).netlist) = shape I.netlist
  | 0 => rfl
  | n + 1 => by rw [iter, stepBody_netlist_shape, iter_netlist_shape I n]

lemma runFrom_netlist_shape (I : Inputs σ) :
    ∀ (rem step : ℕ) (st : LoopState σ),
      shape ((runFrom I rem step st).1.netlist) = shape st.netlist := by
  intro rem
  induction rem with
  | zero => intro step st; rfl
  | succ rem ih =>
    intro step st
    rw [runFrom]
    split
    · rw [stepBody_netlist_shape]
    · rw [ih, stepBody_netlist_shape]

/-- C6: every per-step netlist update touches only the `value` column —
`stepBody` preserves the netlist's row count, element kinds and node
topology — and therefore the netlist shape is unchanged from the start
of the solve to its end. -/
theorem netlist_frame (I : Inputs σ) :
    (∀ (step : ℕ) (st : LoopState σ),
      shape (stepBody I step st).state.netlist = shape st.netlist) ∧
    (∀ n, shape ((iter I n).netlist) = shape I.netlist) ∧
    shape (finalRun I).1.netlist = shape I.netlist :=
  ⟨fun step st => stepBody_netlist_shape I step st,
   iter_netlist_shape I,
   runFrom_netlist_shape I (nsteps I) 0 (initState I)⟩

/-- A concrete one-cell netlist (a voltage source, an internal
resistor, a terminal current source), used by the witnesses. -/
def wNetlist : List Row := [⟨"V1", 1, 0, 0⟩, ⟨"Ri1", 2, 1, 0⟩, ⟨"I1", 3, 0, 0⟩]

/-- Concrete solve inputs for the witnesses: one cell, a two-step
protocol, a constant worker stepper whose terminal voltage `2` is below
the lower cutoff `3` from the first step on. -/
def wInputs : Inputs Unit where
  netlist := wNetlist
  protocol := [2, 2]
  dt := 1
  vCutLower := 3
  vCutHigher := 5
  output_variables := none
  circuitSolve := fun _ => ([0, 0, 0, 0], [1])
  stepper := fun _ _ => ⟨(), [[2], [4]], false⟩
  s0 := ()

lemma stepBody_state_fields (I : Inputs σ) (step : ℕ) (st : LoopState σ)
    (h : st.time + I.dt ≤ endTime I) :
    (stepBody I step st).state.time = st.time + I.dt ∧
    (stepBody I step st).state.recordTimes = st.recordTimes ++ [st.time + I.dt] ∧
    (stepBody I step st).state.vTerminal.length = st.vTerminal.length + 1 ∧
    (stepBody I step st).state.shm_i_app.length = st.shm_i_app.length := by
  unfold stepBody
  dsimp only
  rw [if_pos h]
  refine ⟨rfl, rfl, by simp, ?_⟩
  split <;> simp

lemma stepBody_output_eq (I : Inputs σ) (step : ℕ) (st : LoopState σ) :
    (stepBody I step st).state.output =
      writeStep st.output step (I.stepper st.workerState (st.shm_i_app.getD step [])).outputs := by
  unfold stepBody
  dsimp only
  split <;> rfl

lemma iter_basic (I : Inputs σ) (hdt : 0 < I.dt) :
    ∀ n, n ≤ nsteps I →
      (iter I n).time = (n : ℚ) * I.dt ∧
      (iter I n).recordTimes.length = n ∧
      (iter I n).vTerminal.length = n ∧
      (iter I n).shm_i_app.length = nsteps I := by
  intro n
  induction n with
  | zero =>
    intro _
    refine ⟨by simp [iter, initState], rfl, rfl, by simp [iter, initState]⟩
  | succ n ih =>
    intro hn
    obtain ⟨ht, hr, hv, hs⟩ := ih (Nat.le_of_succ_le hn)
    have hcast : ((n : ℚ) + 1) ≤ (nsteps I : ℚ) := by exact_mod_cast hn
    have hle : (iter I n).time + I.dt ≤ endTime I := by
      rw [ht]
      unfold endTime
      have := mul_le_mul_of_nonneg_right hcast (le_of_lt hdt)
      linarith
    obtain ⟨ht2, hr2, hv2, hs2⟩ := stepBody_state_fields I n (iter I n) hle
    rw [iter]
    refine ⟨?_, ?_, ?_, ?_⟩
    · rw [ht2, ht]; push_cast; ring
    · rw [hr2, List.length_append, hr]; rfl
    · rw [hv2, hv]
    · rw [hs2, hs]

lemma iter_output_len (I : Inputs σ)
    (hshape : ∀ (s : σ) (i : List ℚ), ((I.stepper s i).outputs).length = nvar I) :
    ∀ n, (iter I n).output.length = nvar I ∧
      ∀ row ∈ (iter I n).output, row.length = nsteps I := by
  intro n
  induction n with
  | zero =>
    constructor
    · simp [iter, initState]
    · intro row hrow
      simp only [iter, initState] at hrow
      rw [List.eq_of_mem_replicate hrow]
      simp
  | succ n ih =>
    rw [iter, stepBody_output_eq]
    unfold writeStep
    constructor
    · rw [List.length_zipWith, ih.1, hshape, min_self]
    · intro row hrow
      rw [List.mem_iff_getElem] at hrow
      obtain ⟨j, hj, hrow⟩ := hrow
      rw [List.getElem_zipWith] at hrow
      rw [← hrow, List.length_set]
      exact ih.2 _ (List.getElem_mem _)

lemma runFrom_break (I : Inputs σ) (k : ℕ)
    (hpre : ∀ j, j < k → outOfCut I.vCutLower I.vCutHigher (tempV I j) = false)
    (hbrk : outOfCut I.vCutLower I.vCutHigher (tempV I k) = true) :
    ∀ (rem s : ℕ), s + rem = nsteps I → s ≤ k → k < nsteps I →
      runFrom I rem s (iter I s) = (iter I (k + 1), k) := by
  intro rem
  induction rem with
  | zero =>
    intro s hsum hsk hk
    exact absurd hk (by omega)
  | succ rem ih =>
    intro s hsum hsk hk
    rw [runFrom]
    by_cases hs : s = k
    · subst hs
      unfold tempV at hbrk
      rw [hbrk]
      rfl
    · have hno := hpre s (lt_of_le_of_ne hsk hs)
      unfold tempV at hno
      rw [hno]
      show runFrom I rem (s + 1) (iter I (s + 1)) = (iter I (k + 1), k)
      exact ih (s + 1) (by omega) (by omega) hk

/-- C3: if the per-cell terminal voltage first leaves the
`[vCutLower, vCutHigher]` band at step `k < len(protocol)`, the loop
stops right after recording step `k`, and every series of the returned
result mapping (time, pack current, pack terminal voltage, cell
current, and each output variable) has exactly `k + 1` recorded steps. -/
theorem solve_truncates (I : Inputs σ) (k : ℕ) (hdt : 0 < I.dt)
    (hshape : ∀ (s : σ) (i : List ℚ), ((I.stepper s i).outputs).length = nvar I)
    (hk : k < nsteps I)
    (hpre : ∀ j, j < k → outOfCut I.vCutLower I.vCutHigher (tempV I j) = false)
    (hbrk : outOfCut I.vCutLower I.vCutHigher (tempV I k) = true) :
    finalRun I = (iter I (k + 1), k) ∧
    ∀ p ∈ solve I, seriesLen p.2 = k + 1 := by
  have hrun : finalRun I = (iter I (k + 1), k) := by
    unfold finalRun
    show runFrom I (nsteps I) 0 (iter I 0) = (iter I (k + 1), k)
    exact runFrom_break I k hpre hbrk (nsteps I) 0 (by omega) (by omega) hk
  refine ⟨hrun, ?_⟩
  intro p hp
  obtain ⟨ht, hr, hv, hs⟩ := iter_basic I hdt (k + 1) (by omega)
  obtain ⟨holen, horow⟩ := iter_output_len I hshape (k + 1)
  unfold solve at hp
  rw [hrun] at hp
  dsimp only at hp
  rw [List.mem_append] at hp
  rcases hp with hp | hp
  · simp only [List.mem_cons, List.not_mem_nil, or_false] at hp
    rcases hp with hp | hp | hp | hp <;> subst hp <;> unfold seriesLen <;> dsimp only
    · exact hr
    · rw [List.length_take]
      unfold nsteps at hk
      omega
    · exact hv
    · rw [List.length_take, hs]
      omega
  · rw [List.mem_map] at hp
    obtain ⟨j, hj, hp⟩ := hp
    rw [List.mem_range] at hj
    subst hp
    unfold seriesLen
    dsimp only
    rw [List.length_take]
    have hjlen : j < (iter I (k + 1)).output.length := by rw [holen]; exact hj
    rw [List.getD_eq_getElem _ _ hjlen]
    rw [horow _ (List.getElem_mem _)]
    omega

/-- Witness for `solve_truncates`: with `wInputs` the cutoff fires at
step 0 of the 2-step protocol, so exactly one step is recorded. -/
theorem solve_truncates_witness :
    finalRun wInputs = (iter wInputs 1, 0) ∧
    seriesLen (SeriesVal.one (iter wInputs 1).recordTimes) = 1 :=
  ⟨(solve_truncates wInputs 0 (by with_unfolding_all decide) (fun s i => rfl) (by decide)
      (fun j hj => absurd hj (Nat.not_lt_zero j)) (by with_unfolding_all decide)).1,
   (solve_truncates wInputs 0 (by with_unfolding_all decide) (fun s i => rfl) (by decide)
      (fun j hj => absurd hj (Nat.not_lt_zero j)) (by with_unfolding_all decide)).2
     ("Time [s]", SeriesVal.one (iter wInputs 1).recordTimes) (by with_unfolding_all decide)⟩

lemma getD_set_self {α : Type} (l : List α) (i : ℕ) (v d : α) (h : i < l.length) :
    (l.set i v).getD i d = v := by
  have h2 : i < (l.set i v).length := by rw [List.length_set]; exact h
  rw [List.getD_eq_getElem _ _ h2, List.getElem_set_self]

/-- C10: the applied per-cell current fed to the workers is the
elementwise negation of the branch currents of the latest circuit
solve: row 0 of `shm_i_app` is `-I_batt` of the initial solve, and the
row written for step `j + 1` is `-I_batt` of step `j`'s re-solve. -/
theorem shm_current_negation (I : Inputs σ) (hdt : 0 < I.dt) :
    (0 < nsteps I →
      (initState I).shm_i_app.getD 0 [] = ((I.circuitSolve I.netlist).2).map Neg.neg) ∧
    ∀ j, j + 1 < nsteps I →
      (iter I (j + 1)).shm_i_app.getD (j + 1) [] =
        ((stepBody I j (iter I j)).ibatt).map Neg.neg := by
  constructor
  · intro hN
    unfold initState
    dsimp only
    refine getD_set_self _ 0 _ [] ?_
    rw [List.length_replicate]
    exact hN
  · intro j hj
    obtain ⟨ht, _, _, hs⟩ := iter_basic I hdt j (by omega)
    have hcast : ((j : ℚ) + 1) < (nsteps I : ℚ) := by exact_mod_cast hj
    have hlt : (iter I j).time + I.dt < endTime I := by
      rw [ht]
      unfold endTime
      have := mul_lt_mul_of_pos_right hcast hdt
      linarith
    have hle : (iter I j).time + I.dt ≤ endTime I := le_of_lt hlt
    show (stepBody I j (iter I j)).state.shm_i_app.getD (j + 1) [] = _
    unfold stepBody
    dsimp only
    rw [if_pos hle]
    dsimp only
    rw [if_pos hlt]
    refine getD_set_self _ (j + 1) _ [] ?_
    rw [hs]
    exact hj

/-- Witness for `shm_current_negation` on `wInputs` at `j = 0`. -/
theorem shm_current_negation_witness :
    (initState wInputs).shm_i_app.getD 0 [] =
      ((wInputs.circuitSolve wInputs.netlist).2).map Neg.neg ∧
    (iter wInputs 1).shm_i_app.getD 1 [] =
      ((stepBody wInputs 0 (iter wInputs 0)).ibatt).map Neg.neg :=
  ⟨(shm_current_negation wInputs (by with_unfolding_all decide)).1 (by decide),
   (shm_current_negation wInputs (by with_unfolding_all decide)).2 0 (by decide)⟩

/-- Replace the event component of the worker stepper by an arbitrary
function, leaving the advanced state and the outputs unchanged. -/
def overrideEvents (I : Inputs σ) (f : σ → List ℚ → Bool) : Inputs σ :=
  { I with stepper := fun s i => { I.stepper s i with event := f s i } }

lemma stepBody_overrideEvents (I : Inputs σ) (f : σ → List ℚ → Bool) (step : ℕ)
    (st : LoopState σ) : stepBody (overrideEvents I f) step st = stepBody I step st := rfl

lemma overrideEvents_vCutLower (I : Inputs σ) (f : σ → List ℚ → Bool) :
    (overrideEvents I f).vCutLower = I.vCutLower := rfl

lemma overrideEvents_vCutHigher (I : Inputs σ) (f : σ → List ℚ → Bool) :
    (overrideEvents I f).vCutHigher = I.vCutHigher := rfl

lemma runFrom_overrideEvents (I : Inputs σ) (f : σ → List ℚ → Bool) :
    ∀ (rem step : ℕ) (st : LoopState σ),
      runFrom (overrideEvents I f) rem step st = runFrom I rem step st
  | 0, step, st => rfl
  | rem + 1, step, st => by
    dsimp only [runFrom]
    rw [stepBody_overrideEvents, overrideEvents_vCutLower, overrideEvents_vCutHigher,
      runFrom_overrideEvents I f rem]

lemma runFrom_stop (I : Inputs σ) :
    ∀ (rem s : ℕ), s + rem = nsteps I →
      (runFrom I rem s (iter I s)).2 + 1 < nsteps I →
      outOfCut I.vCutLower I.vCutHigher (tempV I ((runFrom I rem s (iter I s)).2)) = true := by
  intro rem
  induction rem with
  | zero =>
    intro s hsum h
    rw [show (runFrom I 0 s (iter I s)).2 = s - 1 from rfl] at h
    exact absurd h (by omega)
  | succ rem ih =>
    intro s hsum h
    rw [runFrom] at h ⊢
    by_cases hc : outOfCut I.vCutLower I.vCutHigher (stepBody I s (iter I s)).temp_v = true
    · rw [if_pos hc] at h ⊢
      exact hc
    · rw [if_neg hc] at h ⊢
      exact ih (s + 1) (by omega) h

/-- C7: a fired event indicator never alters control flow — replacing
the stepper's event flags by any function at all leaves the whole solve
result unchanged — and the only way the loop stops before the protocol
is exhausted is the terminal-voltage cutoff condition at the last
executed step. -/
theorem events_no_control_flow (I : Inputs σ) :
    (∀ f : σ → List ℚ → Bool, solve (overrideEvents I f) = solve I) ∧
    ((finalRun I).2 + 1 < nsteps I →
      outOfCut I.vCutLower I.vCutHigher (tempV I ((finalRun I).2)) = true) := by
  constructor
  · intro f
    have hfr : finalRun (overrideEvents I f) = finalRun I := by
      show runFrom (overrideEvents I f) (nsteps (overrideEvents I f)) 0
        (initState (overrideEvents I f)) = _
      rw [show nsteps (overrideEvents I f) = nsteps I from rfl,
        show initState (overrideEvents I f) = initState I from rfl,
        runFrom_overrideEvents]
      rfl
    unfold solve
    rw [hfr]
    rfl
  · intro h
    exact runFrom_stop I (nsteps I) 0 (by omega) h

/-- Witness for `events_no_control_flow`: `wInputs` stops at step 0 of
its 2-step protocol, and indeed its cutoff condition holds there. -/
theorem events_no_control_flow_witness :
    (finalRun wInputs).2 + 1 < nsteps wInputs ∧
    outOfCut wInputs.vCutLower wInputs.vCutHigher (tempV wInputs ((finalRun wInputs).2)) = true :=
  ⟨by with_unfolding_all decide,
   (events_no_control_flow wInputs).2 (by with_unfolding_all decide)⟩

/-- C5: the orchestrator is deterministic — two solves with identical
netlist, protocol, parameters and (deterministic) worker backend give
identical output series.  In this embedding the whole solve is a pure
function of its inputs, so equal inputs give equal results. -/
theorem solve_deterministic (I J : Inputs σ) (h : I = J) : solve I = solve J := by rw [h]

/-- Witness for `solve_deterministic` on `wInputs`. -/
theorem solve_deterministic_witness : solve wInputs = solve wInputs :=
  solve_deterministic wInputs wInputs rfl

lemma map_range_getD {α : Type} (l : List α) (d : α) :
    (List.range l.length).map (fun j => l.getD j d) = l := by
  apply List.ext_getElem
  · rw [List.length_map, List.length_range]
  · intro i h1 h2
    rw [List.getElem_map, List.getElem_range]
    exact List.getD_eq_getElem l d h2

lemma solve_keys (I : Inputs σ) :
    (solve I).map Prod.fst =
      ["Time [s]", "Pack current [A]", "Pack terminal voltage [V]", "Cell current [A]"]
        ++ variableNames I.output_variables := by
  unfold solve
  rw [List.map_append, List.map_map]
  congr 1
  show (List.range (nvar I)).map (fun j => (variableNames I.output_variables).getD j "") = _
  exact map_range_getD (variableNames I.output_variables) ""

/-- Concrete inputs with an empty requested-output-variable list. -/
def wInputsC8 : Inputs Unit := { wInputs with output_variables := some [] }

/-- C8 counterexample: with no requested output variables the result
mapping still contains the two always-recorded variables, so its keys
are not exactly the four fixed series plus the requested variables. -/
theorem solve_keys_cex :
    (solve wInputsC8).map Prod.fst ≠
      ["Time [s]", "Pack current [A]", "Pack terminal voltage [V]", "Cell current [A]"] := by
  with_unfolding_all decide

lemma foldl_insert_of_disjoint :
    ∀ (ovs acc : List String), ovs.Nodup → (∀ x ∈ ovs, x ∉ acc) →
      ovs.foldl (fun a out => if out ∈ a then a else a ++ [out]) acc = acc ++ ovs := by
  intro ovs
  induction ovs with
  | nil => intro acc _ _; simp
  | cons o os ih =>
    intro acc hnd hdisj
    have ho : o ∉ acc := hdisj o (List.mem_cons_self o os)
    have hd2 : ∀ x ∈ os, x ∉ acc ++ [o] := by
      intro x hx
      rw [List.mem_append, List.mem_singleton]
      push_neg
      constructor
      · exact hdisj x (List.mem_cons_of_mem o hx)
      · rintro rfl
        exact (List.nodup_cons.mp hnd).1 hx
    rw [List.foldl_cons, if_neg ho, ih (acc ++ [o]) (List.Nodup.of_cons hnd) hd2]
    simp

/-- C8 amended: the result mapping's keys are exactly the four fixed
series, then the two always-recorded variables `Terminal voltage [V]`
and `Measured battery open circuit voltage [V]`, then one entry per
requested output variable not already present (stated here for
duplicate-free requests that do not repeat the mandatory two). -/
theorem solve_keys_amended (I : Inputs σ) (ovs : List String)
    (hov : I.output_variables = some ovs) (hnd : ovs.Nodup)
    (h1 : "Terminal voltage [V]" ∉ ovs)
    (h2 : "Measured battery open circuit voltage [V]" ∉ ovs) :
    (solve I).map Prod.fst =
      ["Time [s]", "Pack current [A]", "Pack terminal voltage [V]", "Cell current [A]",
       "Terminal voltage [V]", "Measured battery open circuit voltage [V]"] ++ ovs := by
  rw [solve_keys I, hov]
  unfold variableNames
  dsimp only
  rw [foldl_insert_of_disjoint ovs _ hnd ?_]
  · rfl
  · intro x hx
    simp only [List.mem_cons, List.not_mem_nil, or_false]
    rintro (rfl | rfl)
    · exact h1 hx
    · exact h2 hx

/-- Concrete inputs requesting one extra output variable. -/
def wInputsC8b : Inputs Unit :=
  { wInputs with output_variables := some ["X-averaged cell temperature [K]"] }

/-- Witness for `solve_keys_amended` with one requested variable. -/
theorem solve_keys_amended_witness :
    (solve wInputsC8b).map Prod.fst =
      ["Time [s]", "Pack current [A]", "Pack terminal voltage [V]", "Cell current [A]",
       "Terminal voltage [V]", "Measured battery open circuit voltage [V]"]
        ++ ["X-averaged cell temperature [K]"] :=
  solve_keys_amended wInputsC8b ["X-averaged cell temperature [K]"] rfl
    (by decide) (by decide) (by decide)

/-- Models `ray_manager.cleanup` (lines 332-336): kills each actor in order;
each `ray.kill`'s outcome is modelled as an `Except`.  The code has no
exception handling, so the first failure propagates out of `cleanup`. -/
def rayCleanup {ε : Type} : List (Except ε Unit) → Except ε Unit
  | [] => Except.ok ()
  | k :: ks =>
    match k with
    | Except.ok _ => rayCleanup ks
    | Except.error e => Except.error e

/-- Models `casadi_manager.cleanup` (lines 403-404), which is `pass`: always succeeds. -/
def casadiCleanup {ε : Type} : Except ε Unit := Except.ok ()

/-- The step loop of `generic_manager.solve` at the level of exception
flow: the outcome of each iteration's worker step, run in order; the
first raising step aborts the loop. -/
def loopSteps {ε : Type} : List (Except ε Unit) → Except ε Unit
  | [] => Except.ok ()
  | s :: ss =>
    match s with
    | Except.ok _ => loopSteps ss
    | Except.error e => Except.error e

/-- The control skeleton of `generic_manager.solve` around the loop:
`self.cleanup()` (line 215) is on the line after the loop with no
try/finally, so cleanup runs iff no step raised.  Returns the overall
outcome and whether cleanup was invoked. -/
def solveControl {ε : Type} (steps : List (Except ε Unit)) : Except ε Unit × Bool :=
  match loopSteps steps with
  | Except.ok _ => (Except.ok (), true)
  | Except.error e => (Except.error e, false)

/-- C9 counterexample: a failing `ray.kill` makes `cleanup` itself
raise (per-worker failures are not caught), and a failing worker step
makes `solve` exit without ever invoking `cleanup`. -/
theorem teardown_cex :
    rayCleanup [Except.error "kill failed"] = Except.error "kill failed" ∧
    (solveControl [Except.error "integration failure"]).2 = false :=
  ⟨rfl, rfl⟩

lemma rayCleanup_ok_iff {ε : Type} :
    ∀ kills : List (Except ε Unit),
      rayCleanup kills = Except.ok () ↔ ∀ k ∈ kills, k = Except.ok () := by
  intro kills
  induction kills with
  | nil => simp [rayCleanup]
  | cons k ks ih =>
    cases k with
    | ok u => cases u; simp [rayCleanup, ih]
    | error e => simp [rayCleanup]

lemma loopSteps_ok_iff {ε : Type} :
    ∀ steps : List (Except ε Unit),
      loopSteps steps = Except.ok () ↔ ∀ s ∈ steps, s = Except.ok () := by
  intro steps
  induction steps with
  | nil => simp [loopSteps]
  | cons s ss ih =>
    cases s with
    | ok u => cases u; simp [loopSteps, ih]
    | error e => simp [loopSteps]

/-- C9 amended: teardown is not exception-safe as claimed — in the ray
backend `cleanup` succeeds iff every per-actor `ray.kill` succeeds (a
per-worker failure propagates, it is not swallowed); the casadi
backend's `cleanup` is a no-op that never fails; and worker resources
are released exactly when every loop step succeeded — a raising step
exits `solve` without invoking `cleanup`. -/
theorem teardown_amended {ε : Type} (kills steps : List (Except ε Unit)) :
    (rayCleanup kills = Except.ok () ↔ ∀ k ∈ kills, k = Except.ok ()) ∧
    casadiCleanup = (Except.ok () : Except ε Unit) ∧
    ((solveControl steps).2 = true ↔ ∀ s ∈ steps, s = Except.ok ()) := by
  refine ⟨rayCleanup_ok_iff kills, rfl, ?_⟩
  unfold solveControl
  rw [← loopSteps_ok_iff]
  cases h : loopSteps steps with
  | ok u => cases u; simp
  | error e => simp

/-- Witness for `teardown_amended` at concrete kill/step outcome lists. -/
theorem teardown_amended_witness :
    (rayCleanup ([] : List (Except String Unit)) = Except.ok () ↔
      ∀ k ∈ ([] : List (Except String Unit)), k = Except.ok ()) ∧
    casadiCleanup = (Except.ok () : Except String Unit) ∧
    ((solveControl ([Except.ok ()] : List (Except String Unit))).2 = true ↔
      ∀ s ∈ ([Except.ok ()] : List (Except String Unit)), s = Except.ok ()) :=
  teardown_amended [] [Except.ok ()]

end Liionpack
